import Mathlib

/-!
Shallow embedding of the bencode decoder in `src/bencode.rs` (a nom-based
parser) together with the accessor API it feeds.

Modelling conventions:
* Bytes are `Nat` (the ASCII codes that appear in the grammar are spelled out:
  105 = 'i', 101 = 'e', 108 = 'l', 100 = 'd', 58 = ':', 45 = '-', 48 = '0').
* A nom `IResult` is modelled by `PRes`: `.ok rest value` for `Ok((rest, value))`,
  `.soft rest kind` for `Err(nom::Err::Error(Error::new(rest, kind)))` (the
  recoverable error an alternation may backtrack over), and `.hard rest kind`
  for `Err(nom::Err::Failure(..))` (the unrecoverable error).  The source uses
  no `cut`, so `.hard` exists only so that the recoverable/unrecoverable
  distinction claimed by the spec is expressible.
* Rust `i64` / `usize` overflow is modelled with explicit `< 2 ^ 63` / `< 2 ^ 64`
  bounds inside the `from_str` model, not with fixed-width integer types.
* The mutually recursive productions take a fuel argument that decreases at each
  descent into a list/dictionary body; the top-level wrappers pass
  `input.length + 1`, which is more than the maximal possible nesting depth
  (every descent first consumes the byte `'l'`/`'d'`), so the fuel-exhaustion
  branch is never taken on the wrappers.
-/

/-- The nom `ErrorKind`s produced by the combinators this parser uses, plus a
`fuelK` marker for the (unreachable from the wrappers) fuel-exhaustion branch. -/
inductive ErrKind where
  | tagK | oneOfK | digitK | verifyK | mapResK | eofK | many0K | fuelK
deriving DecidableEq

/-- Model of `nom::IResult<&[u8], A>`: the remaining input plus a value, or a
recoverable (`soft`, nom `Err::Error`) or unrecoverable (`hard`, nom
`Err::Failure`) error carrying the input position and error kind. -/
inductive PRes (α : Type) where
  | ok : List Nat → α → PRes α
  | soft : List Nat → ErrKind → PRes α
  | hard : List Nat → ErrKind → PRes α
deriving DecidableEq

/-- `true` exactly on a recoverable (`Err::Error`) result. -/
def PRes.isSoftB {α : Type} : PRes α → Bool
  | .soft _ _ => true
  | _ => false

/-- nom `bytes::complete::tag`: match a literal byte sequence. -/
def tagP (t : List Nat) (input : List Nat) : PRes (List Nat) :=
  if input.take t.length = t then .ok (input.drop t.length) t
  else .soft input .tagK

/-- nom `character::complete::one_of`: match one byte from a set. -/
def one_of (cs : List Nat) (input : List Nat) : PRes Nat :=
  match input with
  | [] => .soft [] .oneOfK
  | b :: rest => if b ∈ cs then .ok rest b else .soft (b :: rest) .oneOfK

/-- ASCII decimal digit test, as used by nom's `digit1`. -/
def isDigitB (b : Nat) : Bool := 48 ≤ b && b ≤ 57

/-- nom `character::complete::digit1`: one or more ASCII digits (maximal run). -/
def digit1 (input : List Nat) : PRes (List Nat) :=
  match input.takeWhile isDigitB with
  | [] => .soft input .digitK
  | ds => .ok (input.dropWhile isDigitB) ds

/-- nom `bytes::complete::take`: exactly `n` bytes, `Eof` error if fewer remain. -/
def takeP (n : Nat) (input : List Nat) : PRes (List Nat) :=
  if n ≤ input.length then .ok (input.drop n) (input.take n)
  else .soft input .eofK

/-- nom `combinator::opt`: turn a recoverable error into `none`. -/
def optP {α : Type} (p : List Nat → PRes α) (input : List Nat) : PRes (Option α) :=
  match p input with
  | .ok r v => .ok r (some v)
  | .soft _ _ => .ok input none
  | .hard r k => .hard r k

/-- nom `combinator::peek`: run a parser without consuming input. -/
def peekP {α : Type} (p : List Nat → PRes α) (input : List Nat) : PRes α :=
  match p input with
  | .ok _ v => .ok input v
  | .soft r k => .soft r k
  | .hard r k => .hard r k

/-- nom `combinator::map`. -/
def mapP {α β : Type} (p : List Nat → PRes α) (f : α → β) (input : List Nat) : PRes β :=
  match p input with
  | .ok r v => .ok r (f v)
  | .soft r k => .soft r k
  | .hard r k => .hard r k

/-- nom `combinator::map_res`: a failing conversion becomes a recoverable
`MapRes` error at the combinator's input position. -/
def map_resP {α β : Type} (p : List Nat → PRes α) (f : α → Option β)
    (input : List Nat) : PRes β :=
  match p input with
  | .ok r v =>
    match f v with
    | some w => .ok r w
    | none => .soft input .mapResK
  | .soft r k => .soft r k
  | .hard r k => .hard r k

/-- nom `combinator::verify`: a failing predicate becomes a recoverable
`Verify` error at the combinator's input position. -/
def verifyP {α : Type} (p : List Nat → PRes α) (pred : α → Bool)
    (input : List Nat) : PRes α :=
  match p input with
  | .ok r v => if pred v then .ok r v else .soft input .verifyK
  | .soft r k => .soft r k
  | .hard r k => .hard r k

/-- nom `combinator::value`: replace a parser's output by a constant. -/
def valueP {α β : Type} (v : β) (p : List Nat → PRes α) : List Nat → PRes β :=
  mapP p (fun _ => v)

/-- nom `branch::alt` on two parsers: a recoverable error from the first lets
the second run (the default `ParseError::or` keeps the second error); an
unrecoverable error propagates immediately. -/
def alt2 {α : Type} (p q : List Nat → PRes α) (input : List Nat) : PRes α :=
  match p input with
  | .ok r v => .ok r v
  | .hard r k => .hard r k
  | .soft _ _ => q input

/-- nom `sequence::pair` / binary `tuple`. -/
def pairP {α β : Type} (p : List Nat → PRes α) (q : List Nat → PRes β)
    (input : List Nat) : PRes (α × β) :=
  match p input with
  | .ok r v =>
    match q r with
    | .ok r2 w => .ok r2 (v, w)
    | .soft r2 k => .soft r2 k
    | .hard r2 k => .hard r2 k
  | .soft r k => .soft r k
  | .hard r k => .hard r k

/-- nom `sequence::preceded`. -/
def precededP {α β : Type} (p : List Nat → PRes α) (q : List Nat → PRes β)
    (input : List Nat) : PRes β :=
  match p input with
  | .ok r _ => q r
  | .soft r k => .soft r k
  | .hard r k => .hard r k

/-- nom `sequence::terminated`. -/
def terminatedP {α β : Type} (p : List Nat → PRes α) (q : List Nat → PRes β)
    (input : List Nat) : PRes α :=
  match p input with
  | .ok r v =>
    match q r with
    | .ok r2 _ => .ok r2 v
    | .soft r2 k => .soft r2 k
    | .hard r2 k => .hard r2 k
  | .soft r k => .soft r k
  | .hard r k => .hard r k

/-- Iteration core of nom `multi::many0`.  nom stops on a recoverable error,
propagates an unrecoverable one, and raises a `Many0` error when an iteration
consumes nothing (its zero-length-progress check compares the remaining input
with the iteration's input; every rule of this parser returns a suffix of its
input, so "no progress" is equivalent to "equal length", which is the form used
here to make the recursion structural).  The iteration budget `k` is a
termination device only: because each successful iteration strictly shrinks the
input, `many0P`'s budget of `input.length + 1` can never be exhausted. -/
def many0Go {α : Type} (p : List Nat → PRes α) : Nat → List Nat → PRes (List α)
  | 0, input => .soft input .fuelK
  | k + 1, input =>
    match p input with
    | .soft _ _ => .ok input []
    | .hard r e => .hard r e
    | .ok rest v =>
      if input.length ≤ rest.length then .soft input .many0K
      else
        match many0Go p k rest with
        | .ok r2 vs => .ok r2 (v :: vs)
        | .soft r2 e => .soft r2 e
        | .hard r2 e => .hard r2 e

/-- nom `multi::many0`. -/
def many0P {α : Type} (p : List Nat → PRes α) (input : List Nat) : PRes (List α) :=
  many0Go p (input.length + 1) input

/-- Numeric value of an ASCII digit run, as `str::parse` computes it. -/
def digitsToNat (ds : List Nat) : Nat :=
  ds.foldl (fun acc d => acc * 10 + (d - 48)) 0

/-- `from_digit::<i64>` of `src/bencode.rs` (via `string_from_digit` and
`str::parse::<i64>`), restricted to the digit-only byte runs `digit1` can
produce: UTF-8 decoding always succeeds on ASCII digits, and the parse succeeds
exactly when the run is a nonempty digit string whose value fits in `i64`
(i.e. is at most `2 ^ 63 - 1`); otherwise `anyhow!` yields an error, which
`map_res` turns into a recoverable nom error. -/
def from_digit_i64 (ds : List Nat) : Option Int :=
  if ds ≠ [] ∧ (∀ b ∈ ds, isDigitB b = true) ∧ digitsToNat ds < 2 ^ 63 then
    some (digitsToNat ds)
  else none

/-- `from_digit::<usize>` of `src/bencode.rs`, with `usize` taken to be 64 bits
wide (the target of this program); `str::parse::<usize>` succeeds on a nonempty
digit string — leading zeros included — whose value fits in `usize`. -/
def from_digit_usize (ds : List Nat) : Option Nat :=
  if ds ≠ [] ∧ (∀ b ∈ ds, isDigitB b = true) ∧ digitsToNat ds < 2 ^ 64 then
    some (digitsToNat ds)
  else none

/-- `non_zero_signed_digit1` of `src/bencode.rs`: optional `-` sign, a peeked
non-zero leading digit, a maximal digit run converted through
`from_digit::<i64>`, and the sign applied by multiplication. -/
def non_zero_signed_digit1 (input : List Nat) : PRes Int :=
  match pairP (optP (valueP (-1 : Int) (tagP [45])))
      (map_resP (precededP (peekP (one_of [49, 50, 51, 52, 53, 54, 55, 56, 57])) digit1)
        from_digit_i64) input with
  | .ok rest (sign, d) => .ok rest (sign.getD 1 * d)
  | .soft r k => .soft r k
  | .hard r k => .hard r k

/-- `non_zero_padded_digit` of `src/bencode.rs`: the literal digit run `"0"`
(checked with `verify`), or a non-zero signed digit run. -/
def non_zero_padded_digit : List Nat → PRes Int :=
  alt2 (valueP 0 (verifyP digit1 (fun x => x == [48]))) non_zero_signed_digit1

/-- `parse_str` of `src/bencode.rs`: a `digit1` length converted through
`from_digit::<usize>`, a `":"` tag, then exactly that many bytes. -/
def parse_str (input : List Nat) : PRes (List Nat) :=
  match pairP (map_resP digit1 from_digit_usize) (tagP [58]) input with
  | .ok suffix (len, _) => takeP len suffix
  | .soft r k => .soft r k
  | .hard r k => .hard r k

/-- `parse_int` of `src/bencode.rs`: `"i"`, a `non_zero_padded_digit`, `"e"`. -/
def parse_int (input : List Nat) : PRes Int :=
  terminatedP (precededP (tagP [105]) non_zero_padded_digit) (tagP [101]) input

/-- `BEncodedType` of `src/bencode.rs`.  The `HashMap` behind `Dictionary` is
modelled as an association list with unique keys (see `hm_insert`). -/
inductive BEncodedType where
  | string : List Nat → BEncodedType
  | integer : Int → BEncodedType
  | list : List BEncodedType → BEncodedType
  | dictionary : List (List Nat × BEncodedType) → BEncodedType

/-- `HashMap` lookup on the association-list model. -/
def hm_lookup : List (List Nat × BEncodedType) → List Nat → Option BEncodedType
  | [], _ => none
  | (k1, v1) :: rest, k => if k1 = k then some v1 else hm_lookup rest k

/-- `HashMap::insert` on the association-list model: replace the value of an
existing key, otherwise append the new binding. -/
def hm_insert : List (List Nat × BEncodedType) → List Nat → BEncodedType →
    List (List Nat × BEncodedType)
  | [], k, v => [(k, v)]
  | (k1, v1) :: rest, k, v =>
    if k1 = k then (k, v) :: rest else (k1, v1) :: hm_insert rest k v

/-- `pairs.into_iter().collect::<HashMap<_, _>>()` of `parse_dictionary`:
successive inserts, so a repeated key keeps the value of its last occurrence. -/
def hm_collect (ps : List (List Nat × BEncodedType)) : List (List Nat × BEncodedType) :=
  ps.foldl (fun m p => hm_insert m p.1 p.2) []

/-- `parse_list` of `src/bencode.rs` with the recursive element parser
abstracted: `"l"`, `many0` of the element parser, `"e"`. -/
def parse_listGo (p : List Nat → PRes BEncodedType) (input : List Nat) :
    PRes (List BEncodedType) :=
  terminatedP (precededP (tagP [108]) (many0P p)) (tagP [101]) input

/-- `parse_dictionary` of `src/bencode.rs` with the recursive value parser
abstracted: `"d"`, `many0` of `(parse_str, value)` pairs, `"e"`, then the
pairs collected into the map. -/
def parse_dictGo (p : List Nat → PRes BEncodedType) (input : List Nat) :
    PRes (List (List Nat × BEncodedType)) :=
  match terminatedP (precededP (tagP [100]) (many0P (pairP parse_str p))) (tagP [101])
      input with
  | .ok r ps => .ok r (hm_collect ps)
  | .soft r k => .soft r k
  | .hard r k => .hard r k

/-- `parse_primitive` of `src/bencode.rs` at explicit recursion fuel: the
ordered alternation string / integer / list / dictionary.  Fuel decreases at
each descent into a list or dictionary body. -/
def parse_primitiveF : Nat → List Nat → PRes BEncodedType
  | 0, input => .soft input .fuelK
  | f + 1, input =>
    alt2 (alt2 (alt2 (mapP parse_str BEncodedType.string)
                     (mapP parse_int BEncodedType.integer))
               (mapP (fun i => parse_listGo (parse_primitiveF f) i) BEncodedType.list))
         (mapP (fun i => parse_dictGo (parse_primitiveF f) i) BEncodedType.dictionary)
      input

/-- `parse_primitive` of `src/bencode.rs` (the decoder's entry production):
`input.length + 1` exceeds any possible nesting depth, so the fuel never runs
out. -/
def parse_primitive (input : List Nat) : PRes BEncodedType :=
  parse_primitiveF (input.length + 1) input

/-- `parse_list` of `src/bencode.rs`. -/
def parse_list (input : List Nat) : PRes (List BEncodedType) :=
  parse_listGo (parse_primitiveF (input.length + 1)) input

/-- `parse_dictionary` of `src/bencode.rs`. -/
def parse_dictionary (input : List Nat) : PRes (List (List Nat × BEncodedType)) :=
  parse_dictGo (parse_primitiveF (input.length + 1)) input

/-- Errors of the accessor API (spec §4.2 / §7: semantic/access errors). -/
inductive AccessError where
  | typeError | notFound
deriving DecidableEq

/-- Modelled from the spec: `dict_get` is implemented in a revision of
`bencode.rs` that is not under `src/` (only its callers, `metadata.rs` and
`main.rs`, are).  Per spec §4.2, `dict_get(value, key)` fails with a type error
if `value` is not a Dictionary, fails with a "key not found" error if the key
is absent, and otherwise returns the sub-value associated with the key. -/
def dict_get : BEncodedType → List Nat → Except AccessError BEncodedType
  | .dictionary m, k =>
    match hm_lookup m k with
    | some v => .ok v
    | none => .error .notFound
  | _, _ => .error .typeError

/-- Digits (most significant first, each `< 10`) of a natural number; the first
argument is recursion fuel, always called with at least the digit count. -/
def natDecDigits : Nat → Nat → List Nat
  | 0, _ => []
  | k + 1, n => if n < 10 then [n] else natDecDigits k (n / 10) ++ [n % 10]

/-- The canonical ASCII decimal form `decimal(n)`: no leading zeros, `"0"` for
zero. -/
def decimalOf (n : Nat) : List Nat :=
  (natDecDigits (n + 1) n).map (fun d => d + 48)

/-- The canonical bencode integer encoding `"i" ++ decimal(n) ++ "e"` (with a
`"-"` sign for negative `n`), used to state list-order preservation. -/
def intEnc (n : Int) : List Nat :=
  105 :: ((if n < 0 then [45] else []) ++ (decimalOf n.natAbs ++ [101]))

/-! ### Basic facts about the leaf parsers -/

theorem takeWhile_digits_append (l : List Nat) (c : Nat) (r : List Nat)
    (hl : ∀ b ∈ l, isDigitB b = true) (hc : isDigitB c = false) :
    (l ++ c :: r).takeWhile isDigitB = l := by
  induction l with
  | nil => simp [List.takeWhile_cons, hc]
  | cons a t ih =>
    have ha : isDigitB a = true := hl a (by simp)
    simp only [List.cons_append, List.takeWhile_cons, ha, if_true]
    rw [ih (fun b hb => hl b (by simp [hb]))]

theorem dropWhile_digits_append (l : List Nat) (c : Nat) (r : List Nat)
    (hl : ∀ b ∈ l, isDigitB b = true) (hc : isDigitB c = false) :
    (l ++ c :: r).dropWhile isDigitB = c :: r := by
  induction l with
  | nil => simp [List.dropWhile_cons, hc]
  | cons a t ih =>
    have ha : isDigitB a = true := hl a (by simp)
    simp only [List.cons_append, List.dropWhile_cons, ha, if_true]
    exact ih (fun b hb => hl b (by simp [hb]))

theorem digit1_append (l : List Nat) (c : Nat) (r : List Nat) (hne : l ≠ [])
    (hl : ∀ b ∈ l, isDigitB b = true) (hc : isDigitB c = false) :
    digit1 (l ++ c :: r) = .ok (c :: r) l := by
  unfold digit1
  rw [takeWhile_digits_append l c r hl hc, dropWhile_digits_append l c r hl hc]
  cases l with
  | nil => exact absurd rfl hne
  | cons a t => rfl

theorem digit1_nondigit (c : Nat) (r : List Nat) (hc : isDigitB c = false) :
    digit1 (c :: r) = .soft (c :: r) .digitK := by
  unfold digit1
  simp [List.takeWhile_cons, hc]

theorem tagP_cons_self (b : Nat) (r : List Nat) : tagP [b] (b :: r) = .ok r [b] := by
  simp [tagP]

theorem tagP_cons_ne (b c : Nat) (r : List Nat) (h : c ≠ b) :
    tagP [b] (c :: r) = .soft (c :: r) .tagK := by
  simp [tagP, h]

theorem one_of_mem (cs : List Nat) (b : Nat) (r : List Nat) (h : b ∈ cs) :
    one_of cs (b :: r) = .ok r b := by
  simp [one_of, h]

theorem one_of_not_mem (cs : List Nat) (b : Nat) (r : List Nat) (h : b ∉ cs) :
    one_of cs (b :: r) = .soft (b :: r) .oneOfK := by
  simp [one_of, h]

/-! ### Facts about the canonical decimal form -/

theorem natDecDigits_spec (k : Nat) :
    ∀ n, n < 10 ^ (k + 1) →
      natDecDigits (k + 1) n ≠ [] ∧
      (∀ d ∈ natDecDigits (k + 1) n, d < 10) ∧
      List.foldl (fun a d => a * 10 + d) 0 (natDecDigits (k + 1) n) = n ∧
      (0 < n → ∃ h t, natDecDigits (k + 1) n = h :: t ∧ 0 < h ∧ h < 10) := by
  induction k with
  | zero =>
    intro n hn
    have h10 : n < 10 := by simpa using hn
    refine ⟨by simp [natDecDigits, h10], ?_, by simp [natDecDigits, h10], ?_⟩
    · intro d hd
      simp [natDecDigits, h10] at hd
      omega
    · intro hp
      exact ⟨n, [], by simp [natDecDigits, h10], hp, h10⟩
  | succ k ih =>
    intro n hn
    by_cases h10 : n < 10
    · refine ⟨by simp [natDecDigits, h10], ?_, by simp [natDecDigits, h10], ?_⟩
      · intro d hd
        simp [natDecDigits, h10] at hd
        omega
      · intro hp
        exact ⟨n, [], by simp [natDecDigits, h10], hp, h10⟩
    · have hdiv : n / 10 < 10 ^ (k + 1) := by
        rw [Nat.div_lt_iff_lt_mul (by norm_num : 0 < 10)]
        calc n < 10 ^ (k + 1 + 1) := hn
          _ = 10 ^ (k + 1) * 10 := by ring
      obtain ⟨ine, ilt, ival, ihead⟩ := ih (n / 10) hdiv
      have heq : natDecDigits (k + 1 + 1) n
          = natDecDigits (k + 1) (n / 10) ++ [n % 10] := by
        simp [natDecDigits, h10]
      refine ⟨by simp [heq], ?_, ?_, ?_⟩
      · intro d hd
        rw [heq] at hd
        rcases List.mem_append.mp hd with h | h
        · exact ilt d h
        · simp at h
          omega
      · rw [heq, List.foldl_append, ival]
        simp only [List.foldl_cons, List.foldl_nil]
        omega
      · intro _
        have hq : 0 < n / 10 := Nat.div_pos (by omega) (by norm_num)
        obtain ⟨h, t, hhead, hpos, hlt⟩ := ihead hq
        exact ⟨h, t ++ [n % 10], by rw [heq, hhead]; simp, hpos, hlt⟩

theorem n_lt_ten_pow (n : Nat) : n < 10 ^ (n + 1) := by
  calc n < 10 ^ n := Nat.lt_pow_self (by norm_num) n
    _ ≤ 10 ^ (n + 1) := Nat.pow_le_pow_right (by norm_num) (by omega)

theorem decimalOf_ne_nil (n : Nat) : decimalOf n ≠ [] := by
  obtain ⟨hne, _, _, _⟩ := natDecDigits_spec n n (n_lt_ten_pow n)
  simpa [decimalOf] using hne

theorem decimalOf_all_digits (n : Nat) : ∀ b ∈ decimalOf n, isDigitB b = true := by
  obtain ⟨_, hlt, _, _⟩ := natDecDigits_spec n n (n_lt_ten_pow n)
  intro b hb
  simp only [decimalOf, List.mem_map] at hb
  obtain ⟨d, hd, rfl⟩ := hb
  have := hlt d hd
  simp [isDigitB]
  omega

theorem digitsToNat_map48 (ds : List Nat) : ∀ acc : Nat,
    List.foldl (fun a d => a * 10 + (d - 48)) acc (ds.map (fun d => d + 48))
      = List.foldl (fun a d => a * 10 + d) acc ds := by
  induction ds with
  | nil => intro acc; rfl
  | cons d t ih =>
    intro acc
    simp only [List.map_cons, List.foldl_cons, Nat.add_sub_cancel]
    exact ih _

theorem digitsToNat_decimalOf (n : Nat) : digitsToNat (decimalOf n) = n := by
  obtain ⟨_, _, hval, _⟩ := natDecDigits_spec n n (n_lt_ten_pow n)
  unfold digitsToNat decimalOf
  rw [digitsToNat_map48]
  exact hval

theorem decimalOf_pos_head (n : Nat) (hn : 0 < n) :
    ∃ h t, decimalOf n = h :: t ∧ 49 ≤ h ∧ h ≤ 57 := by
  obtain ⟨_, _, _, hhead⟩ := natDecDigits_spec n n (n_lt_ten_pow n)
  obtain ⟨h, t, heq, hpos, hlt⟩ := hhead hn
  exact ⟨h + 48, t.map (fun d => d + 48), by simp [decimalOf, heq], by omega, by omega⟩

theorem decimalOf_zero : decimalOf 0 = [48] := rfl

theorem decimalOf_ne_single_zero (n : Nat) (hn : 0 < n) : decimalOf n ≠ [48] := by
  intro h
  have := digitsToNat_decimalOf n
  rw [h] at this
  simp [digitsToNat] at this
  omega

/-! ### Facts about the `from_digit` conversions -/

theorem from_digit_i64_decimalOf (n : Nat) (hn : n < 2 ^ 63) :
    from_digit_i64 (decimalOf n) = some (n : Int) := by
  unfold from_digit_i64
  rw [if_pos ⟨decimalOf_ne_nil n, decimalOf_all_digits n,
    by rw [digitsToNat_decimalOf]; exact hn⟩, digitsToNat_decimalOf]

theorem from_digit_i64_overflow (ds : List Nat) (h : 2 ^ 63 ≤ digitsToNat ds) :
    from_digit_i64 ds = none := by
  unfold from_digit_i64
  rw [if_neg]
  intro ⟨_, _, hlt⟩
  omega

theorem digitsToNat_cons_zero (ds : List Nat) : digitsToNat (48 :: ds) = digitsToNat ds := rfl

theorem from_digit_usize_decimalOf (n : Nat) (hn : n < 2 ^ 64) :
    from_digit_usize (decimalOf n) = some n := by
  unfold from_digit_usize
  rw [if_pos ⟨decimalOf_ne_nil n, decimalOf_all_digits n,
    by rw [digitsToNat_decimalOf]; exact hn⟩, digitsToNat_decimalOf]

theorem from_digit_usize_zero_padded (n : Nat) (hn : n < 2 ^ 64) :
    from_digit_usize (48 :: decimalOf n) = some n := by
  have hall : ∀ b ∈ 48 :: decimalOf n, isDigitB b = true := by
    intro b hb
    rcases List.mem_cons.mp hb with rfl | hb
    · rfl
    · exact decimalOf_all_digits n b hb
  have hvv : digitsToNat (48 :: decimalOf n) = n := by
    rw [digitsToNat_cons_zero, digitsToNat_decimalOf]
  unfold from_digit_usize
  rw [if_pos ⟨by simp, hall, by rw [hvv]; exact hn⟩, hvv]

/-! ### Behavior of the integer digit rules on canonical and malformed runs -/

theorem nzp_ok_zero (r : List Nat) :
    non_zero_padded_digit (decimalOf 0 ++ 101 :: r) = .ok (101 :: r) 0 := rfl

theorem beq_list_false {l m : List Nat} (h : l ≠ m) : (l == m) = false := by
  exact beq_eq_false_iff_ne.mpr h

theorem nzp_ok_pos (n : Nat) (hn : 0 < n) (hb : n < 2 ^ 63) (r : List Nat) :
    non_zero_padded_digit (decimalOf n ++ 101 :: r) = .ok (101 :: r) (n : Int) := by
  obtain ⟨h, t, hdec, h49, h57⟩ := decimalOf_pos_head n hn
  have hd1 : digit1 (decimalOf n ++ 101 :: r) = .ok (101 :: r) (decimalOf n) :=
    digit1_append _ _ _ (decimalOf_ne_nil n) (decimalOf_all_digits n) rfl
  have hz : (decimalOf n == [48]) = false := beq_list_false (decimalOf_ne_single_zero n hn)
  have htag : tagP [45] (decimalOf n ++ 101 :: r) = .soft (decimalOf n ++ 101 :: r) .tagK := by
    rw [hdec, List.cons_append]
    exact tagP_cons_ne 45 h _ (by omega)
  have hone : one_of [49, 50, 51, 52, 53, 54, 55, 56, 57] (decimalOf n ++ 101 :: r)
      = .ok (t ++ 101 :: r) h := by
    rw [hdec, List.cons_append]
    exact one_of_mem _ h _ (by simp; omega)
  simp only [non_zero_padded_digit, alt2, valueP, mapP, verifyP, hd1, hz, if_false,
    non_zero_signed_digit1, pairP, optP, peekP, map_resP, precededP, htag, hone,
    from_digit_i64_decimalOf n hb, Option.getD, one_mul]
  rfl

theorem nzp_ok_neg (n : Nat) (hn : 0 < n) (hb : n < 2 ^ 63) (r : List Nat) :
    non_zero_padded_digit (45 :: (decimalOf n ++ 101 :: r)) = .ok (101 :: r) (-(n : Int)) := by
  obtain ⟨h, t, hdec, h49, h57⟩ := decimalOf_pos_head n hn
  have hd1 : digit1 (decimalOf n ++ 101 :: r) = .ok (101 :: r) (decimalOf n) :=
    digit1_append _ _ _ (decimalOf_ne_nil n) (decimalOf_all_digits n) rfl
  have hdig45 : digit1 (45 :: (decimalOf n ++ 101 :: r))
      = .soft (45 :: (decimalOf n ++ 101 :: r)) .digitK := digit1_nondigit 45 _ rfl
  have hone : one_of [49, 50, 51, 52, 53, 54, 55, 56, 57] (decimalOf n ++ 101 :: r)
      = .ok (t ++ 101 :: r) h := by
    rw [hdec, List.cons_append]
    exact one_of_mem _ h _ (by simp; omega)
  simp only [non_zero_padded_digit, alt2, valueP, mapP, verifyP, hdig45,
    non_zero_signed_digit1, pairP, optP, peekP, map_resP, precededP, tagP_cons_self,
    hone, hd1, from_digit_i64_decimalOf n hb, Option.getD, neg_one_mul]

theorem nzp_overflow_pos (n : Nat) (h2 : 2 ^ 63 ≤ n) (r : List Nat) :
    non_zero_padded_digit (decimalOf n ++ 101 :: r)
      = .soft (decimalOf n ++ 101 :: r) .mapResK := by
  obtain ⟨h, t, hdec, h49, h57⟩ := decimalOf_pos_head n (by omega)
  have hd1 : digit1 (decimalOf n ++ 101 :: r) = .ok (101 :: r) (decimalOf n) :=
    digit1_append _ _ _ (decimalOf_ne_nil n) (decimalOf_all_digits n) rfl
  have hz : (decimalOf n == [48]) = false :=
    beq_list_false (decimalOf_ne_single_zero n (by omega))
  have htag : tagP [45] (decimalOf n ++ 101 :: r) = .soft (decimalOf n ++ 101 :: r) .tagK := by
    rw [hdec, List.cons_append]
    exact tagP_cons_ne 45 h _ (by omega)
  have hone : one_of [49, 50, 51, 52, 53, 54, 55, 56, 57] (decimalOf n ++ 101 :: r)
      = .ok (t ++ 101 :: r) h := by
    rw [hdec, List.cons_append]
    exact one_of_mem _ h _ (by simp; omega)
  have hovf : from_digit_i64 (decimalOf n) = none :=
    from_digit_i64_overflow _ (by rw [digitsToNat_decimalOf]; exact h2)
  simp only [non_zero_padded_digit, alt2, valueP, mapP, verifyP, hd1, hz, if_false,
    non_zero_signed_digit1, pairP, optP, peekP, map_resP, precededP, htag, hone, hovf]
  rfl

theorem nzp_overflow_neg (n : Nat) (h2 : 2 ^ 63 ≤ n) (r : List Nat) :
    non_zero_padded_digit (45 :: (decimalOf n ++ 101 :: r))
      = .soft (decimalOf n ++ 101 :: r) .mapResK := by
  obtain ⟨h, t, hdec, h49, h57⟩ := decimalOf_pos_head n (by omega)
  have hd1 : digit1 (decimalOf n ++ 101 :: r) = .ok (101 :: r) (decimalOf n) :=
    digit1_append _ _ _ (decimalOf_ne_nil n) (decimalOf_all_digits n) rfl
  have hdig45 : digit1 (45 :: (decimalOf n ++ 101 :: r))
      = .soft (45 :: (decimalOf n ++ 101 :: r)) .digitK := digit1_nondigit 45 _ rfl
  have hone : one_of [49, 50, 51, 52, 53, 54, 55, 56, 57] (decimalOf n ++ 101 :: r)
      = .ok (t ++ 101 :: r) h := by
    rw [hdec, List.cons_append]
    exact one_of_mem _ h _ (by simp; omega)
  have hovf : from_digit_i64 (decimalOf n) = none :=
    from_digit_i64_overflow _ (by rw [digitsToNat_decimalOf]; exact h2)
  simp only [non_zero_padded_digit, alt2, valueP, mapP, verifyP, hdig45,
    non_zero_signed_digit1, pairP, optP, peekP, map_resP, precededP, tagP_cons_self,
    hone, hd1, hovf]

theorem nzp_zero_padded (ds : List Nat) (hne : ds ≠ [])
    (hds : ∀ b ∈ ds, isDigitB b = true) (r : List Nat) :
    non_zero_padded_digit (48 :: (ds ++ 101 :: r))
      = .soft (48 :: (ds ++ 101 :: r)) .oneOfK := by
  have hd1 : digit1 ((48 :: ds) ++ 101 :: r) = .ok (101 :: r) (48 :: ds) :=
    digit1_append _ _ _ (by simp) (by
      intro b hb
      rcases List.mem_cons.mp hb with rfl | hb
      · rfl
      · exact hds b hb) rfl
  rw [List.cons_append] at hd1
  have hz : ((48 :: ds) == [48]) = false := beq_list_false (by simp [hne])
  have hone : one_of [49, 50, 51, 52, 53, 54, 55, 56, 57] (48 :: (ds ++ 101 :: r))
      = .soft (48 :: (ds ++ 101 :: r)) .oneOfK := one_of_not_mem _ _ _ (by simp)
  simp only [non_zero_padded_digit, alt2, valueP, mapP, verifyP, hd1, hz, if_false,
    non_zero_signed_digit1, pairP, optP, peekP, map_resP, precededP,
    tagP_cons_ne 45 48 _ (by omega), hone]
  rfl

theorem nzp_zero_padded_neg (ds : List Nat) (r : List Nat) :
    non_zero_padded_digit (45 :: 48 :: (ds ++ 101 :: r))
      = .soft (48 :: (ds ++ 101 :: r)) .oneOfK := by
  have hone : one_of [49, 50, 51, 52, 53, 54, 55, 56, 57] (48 :: (ds ++ 101 :: r))
      = .soft (48 :: (ds ++ 101 :: r)) .oneOfK := one_of_not_mem _ _ _ (by simp)
  simp only [non_zero_padded_digit, alt2, valueP, mapP, verifyP,
    digit1_nondigit 45 _ rfl, non_zero_signed_digit1, pairP, optP, peekP, map_resP,
    precededP, tagP_cons_self, hone]

/-! ### Assembling `parse_int`, `parse_str` and the `parse_primitive` dispatch -/

theorem parse_int_build (middle r : List Nat) (v : Int)
    (h : non_zero_padded_digit middle = .ok (101 :: r) v) :
    parse_int (105 :: middle) = .ok r v := by
  simp only [parse_int, terminatedP, precededP, tagP_cons_self, h]

theorem parse_int_soft_of_nzp (middle r : List Nat) (k : ErrKind)
    (h : non_zero_padded_digit middle = .soft r k) :
    parse_int (105 :: middle) = .soft r k := by
  simp only [parse_int, terminatedP, precededP, tagP_cons_self, h]

theorem parse_str_str_ok (s t : List Nat) (hL : s.length < 2 ^ 64) :
    parse_str (decimalOf s.length ++ 58 :: (s ++ t)) = .ok t s := by
  have hd1 : digit1 (decimalOf s.length ++ 58 :: (s ++ t))
      = .ok (58 :: (s ++ t)) (decimalOf s.length) :=
    digit1_append _ _ _ (decimalOf_ne_nil _) (decimalOf_all_digits _) rfl
  have htake : takeP s.length (s ++ t) = .ok t s := by
    unfold takeP
    rw [if_pos (by simp), List.take_left, List.drop_left]
  simp only [parse_str, pairP, map_resP, hd1, from_digit_usize_decimalOf _ hL,
    tagP_cons_self, htake]

theorem parse_str_str_short (L : Nat) (s2 : List Nat) (hL : L < 2 ^ 64)
    (hs : s2.length < L) :
    parse_str (decimalOf L ++ 58 :: s2) = .soft s2 .eofK := by
  have hd1 : digit1 (decimalOf L ++ 58 :: s2) = .ok (58 :: s2) (decimalOf L) :=
    digit1_append _ _ _ (decimalOf_ne_nil _) (decimalOf_all_digits _) rfl
  have htake : takeP L s2 = .soft s2 .eofK := by
    unfold takeP
    rw [if_neg (by omega)]
  simp only [parse_str, pairP, map_resP, hd1, from_digit_usize_decimalOf _ hL,
    tagP_cons_self, htake]

theorem parse_str_leading_zero (L : Nat) (s t : List Nat) (hs : s.length = L)
    (hL : L < 2 ^ 64) :
    parse_str (48 :: (decimalOf L ++ 58 :: (s ++ t))) = .ok t s := by
  have hd1 : digit1 ((48 :: decimalOf L) ++ 58 :: (s ++ t))
      = .ok (58 :: (s ++ t)) (48 :: decimalOf L) := by
    refine digit1_append _ _ _ (by simp) ?_ rfl
    intro b hb
    rcases List.mem_cons.mp hb with rfl | hb
    · rfl
    · exact decimalOf_all_digits L b hb
  rw [List.cons_append] at hd1
  have htake : takeP L (s ++ t) = .ok t s := by
    unfold takeP
    rw [if_pos (by simp; omega)]
    rw [← hs, List.take_left, List.drop_left]
  simp only [parse_str, pairP, map_resP, hd1, from_digit_usize_zero_padded _ hL,
    tagP_cons_self, htake]

theorem parse_str_on_105 (rest : List Nat) :
    parse_str (105 :: rest) = .soft (105 :: rest) .digitK := rfl

theorem parse_str_on_108 (rest : List Nat) :
    parse_str (108 :: rest) = .soft (108 :: rest) .digitK := rfl

theorem primF_str_ok (f : Nat) (input r : List Nat) (v : List Nat)
    (h : parse_str input = .ok r v) :
    parse_primitiveF (f + 1) input = .ok r (.string v) := by
  simp only [parse_primitiveF, alt2, mapP, h]

theorem primF_int_ok (f : Nat) (rest r : List Nat) (v : Int)
    (h : parse_int (105 :: rest) = .ok r v) :
    parse_primitiveF (f + 1) (105 :: rest) = .ok r (.integer v) := by
  simp only [parse_primitiveF, alt2, mapP, parse_str_on_105, h]

theorem primF_int_soft (f : Nat) (rest r0 : List Nat) (k0 : ErrKind)
    (h : parse_int (105 :: rest) = .soft r0 k0) :
    parse_primitiveF (f + 1) (105 :: rest) = .soft (105 :: rest) .tagK := by
  simp only [parse_primitiveF, alt2, mapP, parse_str_on_105, h, parse_listGo,
    parse_dictGo, terminatedP, precededP, tagP_cons_ne 108 105 rest (by omega),
    tagP_cons_ne 100 105 rest (by omega)]

theorem primF_head_fail (f : Nat) (c : Nat) (rest r0 : List Nat) (k0 : ErrKind)
    (h : parse_str (c :: rest) = .soft r0 k0) (h105 : c ≠ 105) (h108 : c ≠ 108)
    (h100 : c ≠ 100) :
    parse_primitiveF (f + 1) (c :: rest) = .soft (c :: rest) .tagK := by
  simp only [parse_primitiveF, alt2, mapP, h, parse_int, parse_listGo, parse_dictGo,
    terminatedP, precededP, tagP_cons_ne 105 c rest h105,
    tagP_cons_ne 108 c rest h108, tagP_cons_ne 100 c rest h100]

theorem prim_fuel_eq (input : List Nat) :
    parse_primitive input = parse_primitiveF (input.length + 1) input := rfl

theorem prim_str_ok (input r : List Nat) (v : List Nat)
    (h : parse_str input = .ok r v) :
    parse_primitive input = .ok r (.string v) := by
  rw [prim_fuel_eq]
  exact primF_str_ok input.length input r v h

theorem prim_int_ok (rest r : List Nat) (v : Int)
    (h : parse_int (105 :: rest) = .ok r v) :
    parse_primitive (105 :: rest) = .ok r (.integer v) := by
  rw [prim_fuel_eq]
  exact primF_int_ok (105 :: rest).length rest r v h

theorem prim_int_soft (rest r0 : List Nat) (k0 : ErrKind)
    (h : parse_int (105 :: rest) = .soft r0 k0) :
    parse_primitive (105 :: rest) = .soft (105 :: rest) .tagK := by
  rw [prim_fuel_eq]
  exact primF_int_soft (105 :: rest).length rest r0 k0 h

theorem prim_head_fail (c : Nat) (rest r0 : List Nat) (k0 : ErrKind)
    (h : parse_str (c :: rest) = .soft r0 k0) (h105 : c ≠ 105) (h108 : c ≠ 108)
    (h100 : c ≠ 100) :
    parse_primitive (c :: rest) = .soft (c :: rest) .tagK := by
  rw [prim_fuel_eq]
  exact primF_head_fail (c :: rest).length c rest r0 k0 h h105 h108 h100

/-! ### List parsing of canonical integer encodings (order preservation) -/

theorem primF_any_e_soft (f : Nat) (t : List Nat) :
    (parse_primitiveF f (101 :: t)).isSoftB = true := by
  cases f with
  | zero => rfl
  | succ g => rfl

theorem primF_intEnc (f : Nat) (n : Int) (hn : n.natAbs < 2 ^ 63) (rest : List Nat) :
    parse_primitiveF (f + 1) (intEnc n ++ rest) = .ok rest (.integer n) := by
  rcases lt_trichotomy n 0 with hneg | rfl | hpos
  · have henc : intEnc n ++ rest
        = 105 :: (45 :: (decimalOf n.natAbs ++ 101 :: rest)) := by
      simp [intEnc, if_pos hneg]
    rw [henc]
    refine primF_int_ok f _ _ _ (parse_int_build _ _ _ ?_)
    have habs : 0 < n.natAbs := by omega
    have := nzp_ok_neg n.natAbs habs hn rest
    rw [this]
    congr 1
    omega
  · have henc : intEnc 0 ++ rest = 105 :: (decimalOf 0 ++ 101 :: rest) := by
      simp [intEnc]
    rw [henc]
    exact primF_int_ok f _ _ _ (parse_int_build _ _ _ (nzp_ok_zero rest))
  · have henc : intEnc n ++ rest
        = 105 :: (decimalOf n.natAbs ++ 101 :: rest) := by
      simp [intEnc, if_neg (by omega : ¬n < 0)]
    rw [henc]
    refine primF_int_ok f _ _ _ (parse_int_build _ _ _ ?_)
    have habs : 0 < n.natAbs := by omega
    have := nzp_ok_pos n.natAbs habs hn rest
    rw [this]
    congr 1
    omega

theorem intEnc_cons (n : Int) : ∃ t, intEnc n = 105 :: t := ⟨_, rfl⟩

theorem many0_intEncs (ns : List Int) : ∀ (k f : Nat) (t : List Nat),
    (∀ n ∈ ns, n.natAbs < 2 ^ 63) → ns.length < k →
    many0Go (parse_primitiveF (f + 1)) k ((ns.map intEnc).flatten ++ 101 :: t)
      = .ok (101 :: t) (ns.map .integer) := by
  induction ns with
  | nil =>
    intro k f t _ hk
    cases k with
    | zero => omega
    | succ k2 =>
      show many0Go (parse_primitiveF (f + 1)) (k2 + 1) (101 :: t)
          = .ok (101 :: t) []
      have hsoft := primF_any_e_soft (f + 1) t
      cases hres : parse_primitiveF (f + 1) (101 :: t) with
      | ok r v => rw [hres] at hsoft; simp [PRes.isSoftB] at hsoft
      | hard r e => rw [hres] at hsoft; simp [PRes.isSoftB] at hsoft
      | soft r e => simp only [many0Go, hres]
  | cons n ns ih =>
    intro k f t hb hk
    cases k with
    | zero => omega
    | succ k2 =>
      have hjoin : ((n :: ns).map intEnc).flatten ++ 101 :: t
          = intEnc n ++ ((ns.map intEnc).flatten ++ 101 :: t) := by
        simp [List.append_assoc]
      rw [hjoin]
      have h1 := primF_intEnc f n (hb n (by simp)) ((ns.map intEnc).flatten ++ 101 :: t)
      have hlen : ¬ (intEnc n ++ ((ns.map intEnc).flatten ++ 101 :: t)).length
          ≤ ((ns.map intEnc).flatten ++ 101 :: t).length := by
        obtain ⟨t2, ht2⟩ := intEnc_cons n
        rw [ht2, List.cons_append, List.length_cons, List.length_append]
        omega
      have hrec := ih k2 f t (fun m hm => hb m (by simp [hm])) (by simp at hk; omega)
      simp only [many0Go, h1, hlen, if_false, hrec, List.map_cons]

theorem join_intEnc_len (ns : List Int) :
    ns.length ≤ ((ns.map intEnc).flatten).length := by
  induction ns with
  | nil => simp
  | cons n t ih =>
    obtain ⟨t2, ht2⟩ := intEnc_cons n
    have hflat : ((n :: t).map intEnc).flatten = intEnc n ++ (t.map intEnc).flatten := by
      simp
    rw [hflat, List.length_append, ht2, List.length_cons, List.length_cons]
    omega

theorem parse_int_on_108 (rest : List Nat) :
    parse_int (108 :: rest) = .soft (108 :: rest) .tagK := rfl

theorem primF_list_ok (f : Nat) (rest r : List Nat) (vs : List BEncodedType)
    (h : parse_listGo (parse_primitiveF f) (108 :: rest) = .ok r vs) :
    parse_primitiveF (f + 1) (108 :: rest) = .ok r (.list vs) := by
  simp only [parse_primitiveF, alt2, mapP, parse_str_on_108, parse_int_on_108, h]

theorem prim_list_of_intEncs (ns : List Int) (t : List Nat)
    (hb : ∀ n ∈ ns, n.natAbs < 2 ^ 63) :
    parse_primitive (108 :: ((ns.map intEnc).flatten ++ 101 :: t))
      = .ok t (.list (ns.map .integer)) := by
  have hk : ns.length < ((ns.map intEnc).flatten ++ 101 :: t).length + 1 := by
    have := join_intEnc_len ns
    rw [List.length_append]
    omega
  have hmany : many0P
      (parse_primitiveF (((ns.map intEnc).flatten ++ 101 :: t).length + 1))
      ((ns.map intEnc).flatten ++ 101 :: t) = .ok (101 :: t) (ns.map .integer) := by
    unfold many0P
    exact many0_intEncs ns _ ((ns.map intEnc).flatten ++ 101 :: t).length t hb hk
  have hgo : parse_listGo
      (parse_primitiveF (((ns.map intEnc).flatten ++ 101 :: t).length + 1))
      (108 :: ((ns.map intEnc).flatten ++ 101 :: t))
      = .ok t (ns.map .integer) := by
    unfold parse_listGo
    simp only [terminatedP, precededP, tagP_cons_self, hmany]
  have hfuel : (108 :: ((ns.map intEnc).flatten ++ 101 :: t)).length + 1
      = (((ns.map intEnc).flatten ++ 101 :: t).length + 1) + 1 := by
    simp
  rw [prim_fuel_eq, hfuel]
  exact primF_list_ok _ _ _ _ hgo

/-! ### Facts about the dictionary model -/

theorem hm_lookup_insert (m : List (List Nat × BEncodedType)) (k : List Nat)
    (v : BEncodedType) : hm_lookup (hm_insert m k v) k = some v := by
  induction m with
  | nil => simp [hm_insert, hm_lookup]
  | cons p rest ih =>
    obtain ⟨k1, v1⟩ := p
    by_cases h : k1 = k
    · simp [hm_insert, h, hm_lookup]
    · simp [hm_insert, h, hm_lookup, ih]

theorem hm_collect_last_wins (ps : List (List Nat × BEncodedType)) (k : List Nat)
    (v : BEncodedType) : hm_lookup (hm_collect (ps ++ [(k, v)])) k = some v := by
  unfold hm_collect
  rw [List.foldl_append]
  exact hm_lookup_insert _ k v

/-! ### The claims -/

/-- C1: for every non-negative integer n whose canonical decimal form has no
leading zeros and which fits in a signed 64-bit integer (n ≤ 2^63 - 1), parsing
"i" ++ decimal(n) ++ "e" succeeds and yields Integer(n) with an empty
remainder; and for every such n > 0, parsing "i-" ++ decimal(n) ++ "e" succeeds
and yields Integer(-n) with an empty remainder. -/
theorem claim1_integer_roundtrip (n : Nat) (hn : n < 2 ^ 63) :
    parse_primitive (105 :: (decimalOf n ++ [101])) = .ok [] (.integer (n : Int)) ∧
    (0 < n →
      parse_primitive (105 :: 45 :: (decimalOf n ++ [101]))
        = .ok [] (.integer (-(n : Int)))) := by
  constructor
  · rcases Nat.eq_zero_or_pos n with rfl | hp
    · exact prim_int_ok _ _ _ (parse_int_build _ _ _ (nzp_ok_zero []))
    · exact prim_int_ok _ _ _ (parse_int_build _ _ _ (nzp_ok_pos n hp hn []))
  · intro hp
    exact prim_int_ok _ _ _ (parse_int_build _ _ _ (nzp_ok_neg n hp hn []))

/-- Witness for C1 at n = 42. -/
theorem claim1_integer_roundtrip_witness :
    parse_primitive (105 :: (decimalOf 42 ++ [101]))
      = .ok [] (.integer ((42 : Nat) : Int)) ∧
    parse_primitive (105 :: 45 :: (decimalOf 42 ++ [101]))
      = .ok [] (.integer (-((42 : Nat) : Int))) :=
  ⟨(claim1_integer_roundtrip 42 (by norm_num)).1,
   (claim1_integer_roundtrip 42 (by norm_num)).2 (by norm_num)⟩

/-- C2: for every byte sequence s of length L (necessarily < 2^64, the range of
`usize`) and every trailing byte sequence t, parsing
decimal(L) ++ ":" ++ s ++ t succeeds and yields ByteString(s) with remainder
exactly t; and for every input consisting of decimal(L) ++ ":" followed by
strictly fewer than L bytes, parsing fails (a recoverable `Eof` error from the
string rule, and overall failure of the primitive alternation). -/
theorem claim2_bytestring (s t : List Nat) (hL : s.length < 2 ^ 64) :
    parse_primitive (decimalOf s.length ++ 58 :: (s ++ t)) = .ok t (.string s) ∧
    ∀ s2 : List Nat, s2.length < s.length →
      parse_str (decimalOf s.length ++ 58 :: s2) = .soft s2 .eofK ∧
      parse_primitive (decimalOf s.length ++ 58 :: s2)
        = .soft (decimalOf s.length ++ 58 :: s2) .tagK := by
  constructor
  · exact prim_str_ok _ _ _ (parse_str_str_ok s t hL)
  · intro s2 hs2
    have hfail := parse_str_str_short s.length s2 hL hs2
    refine ⟨hfail, ?_⟩
    obtain ⟨h, t3, hdec, h49, h57⟩ := decimalOf_pos_head s.length (by omega)
    have hfail2 : parse_str (h :: (t3 ++ 58 :: s2)) = .soft s2 .eofK := by
      rw [← List.cons_append, ← hdec]
      exact hfail
    have hp := prim_head_fail h (t3 ++ 58 :: s2) s2 .eofK hfail2
      (by omega) (by omega) (by omega)
    rw [hdec, List.cons_append]
    exact hp

/-- Witness for C2 at s = "ab", t = "c", short payload "a". -/
theorem claim2_bytestring_witness :
    parse_primitive (decimalOf ([97, 98] : List Nat).length ++ 58 :: ([97, 98] ++ [99]))
      = .ok [99] (.string [97, 98]) ∧
    parse_str (decimalOf ([97, 98] : List Nat).length ++ 58 :: [97]) = .soft [97] .eofK :=
  ⟨(claim2_bytestring [97, 98] [99] (by norm_num)).1,
   ((claim2_bytestring [97, 98] [99] (by norm_num)).2 [97] (by norm_num)).1⟩

/-- C3: parsing "i0e" succeeds and yields Integer(0); parsing "i-0e" fails; and
for every non-empty digit run ds, parsing "i0" ++ ds ++ "e" and
"i-0" ++ ds ++ "e" fails (the integer rule reports a recoverable `OneOf` error
at the digit run, and the whole alternation fails). -/
theorem claim3_zero_forms :
    parse_primitive [105, 48, 101] = .ok [] (.integer 0) ∧
    parse_primitive [105, 45, 48, 101] = .soft [105, 45, 48, 101] .tagK ∧
    ∀ ds : List Nat, ds ≠ [] → (∀ b ∈ ds, isDigitB b = true) →
      (parse_int (105 :: 48 :: (ds ++ [101])) = .soft (48 :: (ds ++ [101])) .oneOfK ∧
       parse_primitive (105 :: 48 :: (ds ++ [101]))
         = .soft (105 :: 48 :: (ds ++ [101])) .tagK) ∧
      (parse_int (105 :: 45 :: 48 :: (ds ++ [101]))
         = .soft (48 :: (ds ++ [101])) .oneOfK ∧
       parse_primitive (105 :: 45 :: 48 :: (ds ++ [101]))
         = .soft (105 :: 45 :: 48 :: (ds ++ [101])) .tagK) := by
  refine ⟨rfl, rfl, ?_⟩
  intro ds hne hds
  have h1 := parse_int_soft_of_nzp _ _ _ (nzp_zero_padded ds hne hds [])
  have h2 := parse_int_soft_of_nzp _ _ _ (nzp_zero_padded_neg ds [])
  exact ⟨⟨h1, prim_int_soft _ _ _ h1⟩, ⟨h2, prim_int_soft _ _ _ h2⟩⟩

/-- Witness for C3's universal part at ds = "5". -/
theorem claim3_zero_forms_witness :
    parse_int (105 :: 48 :: ([53] ++ [101])) = .soft (48 :: ([53] ++ [101])) .oneOfK ∧
    parse_int (105 :: 45 :: 48 :: ([53] ++ [101]))
      = .soft (48 :: ([53] ++ [101])) .oneOfK :=
  ⟨((claim3_zero_forms.2.2 [53] (by decide) (by decide)).1).1,
   ((claim3_zero_forms.2.2 [53] (by decide) (by decide)).2).1⟩

/-- Counterexample for C4 as stated: the byte-string rule ACCEPTS the
leading-zero length "02" in "02:ab" and yields ByteString("ab"), rather than
failing (the length is parsed with plain `digit1` + `usize::from_str`, which
takes "02" to 2). -/
theorem claim4_counterexample : parse_str [48, 50, 58, 97, 98] = .ok [] [97, 98] := rfl

/-- C4 amended: the byte-string rule accepts a length prefix written with a
leading zero followed by more digits, interpreting it as its numeric value: for
every L < 2^64 and payload s of length L, parsing
"0" ++ decimal(L) ++ ":" ++ s ++ t succeeds with payload s and remainder t. -/
theorem claim4_amended (L : Nat) (s t : List Nat) (hs : s.length = L)
    (hL : L < 2 ^ 64) :
    parse_str (48 :: (decimalOf L ++ 58 :: (s ++ t))) = .ok t s :=
  parse_str_leading_zero L s t hs hL

/-- Witness for the amended C4 at "02:ab" ++ "c". -/
theorem claim4_amended_witness :
    parse_str (48 :: (decimalOf 2 ++ 58 :: ([97, 98] ++ [99]))) = .ok [99] [97, 98] :=
  claim4_amended 2 [97, 98] [99] rfl (by norm_num)

/-- C5 (code evaluation): on the dictionary input "di12ei99ee" whose key
position holds an integer, `parse_dictionary` returns the RECOVERABLE error
`Err::Error(("i12ei99ee", Tag))`, not the unrecoverable `Err::Failure` that the
claim, the spec, and the repo's own test `non_string_key` require; the
top-level alternation also fails with a recoverable error (after having tried
the other productions). -/
theorem claim5_nonstring_key_soft :
    parse_dictionary [100, 105, 49, 50, 101, 105, 57, 57, 101, 101]
      = .soft [105, 49, 50, 101, 105, 57, 57, 101, 101] .tagK ∧
    parse_primitive [100, 105, 49, 50, 101, 105, 57, 57, 101, 101]
      = .soft [105, 49, 50, 101, 105, 57, 57, 101, 101] .tagK :=
  ⟨rfl, rfl⟩

/-- C6 (code evaluation): malformed integer digit runs after the opening "i"
("i032e", lone "-" in "i-e", "-0" in "i-0e") make `parse_int` fail with the
RECOVERABLE error `Err::Error(.., OneOf)` — not the unrecoverable failure the
claim, the spec, and the repo's own test `doesnt_parse_zero_padded_integer`
require — and the outer alternation then tries the list and dictionary rules
(its final error is the dictionary branch's Tag error). -/
theorem claim6_malformed_integer_soft :
    parse_int [105, 48, 51, 50, 101] = .soft [48, 51, 50, 101] .oneOfK ∧
    parse_int [105, 45, 101] = .soft [101] .oneOfK ∧
    parse_int [105, 45, 48, 101] = .soft [48, 101] .oneOfK ∧
    parse_primitive [105, 48, 51, 50, 101] = .soft [105, 48, 51, 50, 101] .tagK :=
  ⟨rfl, rfl, rfl, rfl⟩

/-- C7: parsing "li1ei2ei3ee" yields the ordered list
[Integer 1, Integer 2, Integer 3]; and in general parsing
"l" ++ enc(n1) ++ .. ++ enc(nk) ++ "e" ++ t over canonical integer encodings
yields exactly [Integer n1, .., Integer nk] in input order with remainder t. -/
theorem claim7_list_order :
    parse_primitive [108, 105, 49, 101, 105, 50, 101, 105, 51, 101, 101]
      = .ok [] (.list [.integer 1, .integer 2, .integer 3]) ∧
    ∀ (ns : List Int) (t : List Nat), (∀ n ∈ ns, n.natAbs < 2 ^ 63) →
      parse_primitive (108 :: ((ns.map intEnc).flatten ++ 101 :: t))
        = .ok t (.list (ns.map .integer)) :=
  ⟨rfl, fun ns t hb => prim_list_of_intEncs ns t hb⟩

/-- Witness for C7's universal part at ns = [2, -5], t = "7". -/
theorem claim7_list_order_witness :
    parse_primitive (108 :: ((([2, -5] : List Int).map intEnc).flatten ++ 101 :: [55]))
      = .ok [55] (.list (([2, -5] : List Int).map .integer)) :=
  claim7_list_order.2 [2, -5] [55] (by decide)

/-- C8: `dict_get` on a Dictionary value returns exactly the sub-value
associated with the key when it is present, fails with a "key not found" error
when it is absent, and fails with a type error on every non-Dictionary variant
regardless of the key. -/
theorem claim8_dict_get_contract (m : List (List Nat × BEncodedType)) (k : List Nat) :
    (∀ v, hm_lookup m k = some v → dict_get (.dictionary m) k = .ok v) ∧
    (hm_lookup m k = none → dict_get (.dictionary m) k = .error .notFound) ∧
    (∀ s, dict_get (.string s) k = .error .typeError) ∧
    (∀ i, dict_get (.integer i) k = .error .typeError) ∧
    (∀ l, dict_get (.list l) k = .error .typeError) := by
  refine ⟨?_, ?_, fun s => rfl, fun i => rfl, fun l => rfl⟩
  · intro v h
    simp [dict_get, h]
  · intro h
    simp [dict_get, h]

/-- Witness for C8 on the dictionary {"a": Integer 1} and on an Integer. -/
theorem claim8_dict_get_contract_witness :
    dict_get (.dictionary [([97], .integer 1)]) [97] = .ok (.integer 1) ∧
    dict_get (.dictionary [([97], .integer 1)]) [98] = .error .notFound ∧
    dict_get (.integer 7) [97] = .error .typeError :=
  ⟨(claim8_dict_get_contract [([97], .integer 1)] [97]).1 (.integer 1) rfl,
   (claim8_dict_get_contract [([97], .integer 1)] [98]).2.1 rfl,
   (claim8_dict_get_contract [([97], .integer 1)] [97]).2.2.2.1 7⟩

/-- C9: a dictionary input with a repeated key parses successfully and maps the
key to its LAST occurrence's value: "d1:ai1e1:ai2ee" yields {"a": Integer 2};
and in general collecting parsed pairs ending in (k, v) makes k look up v. -/
theorem claim9_duplicate_keys :
    parse_primitive [100, 49, 58, 97, 105, 49, 101, 49, 58, 97, 105, 50, 101, 101]
      = .ok [] (.dictionary [([97], .integer 2)]) ∧
    ∀ (ps : List (List Nat × BEncodedType)) (k : List Nat) (v : BEncodedType),
      hm_lookup (hm_collect (ps ++ [(k, v)])) k = some v :=
  ⟨rfl, fun ps k v => hm_collect_last_wins ps k v⟩

/-- Counterexample for C10 as stated: at n = 0 the claim asserts that
"i-" ++ decimal(0) ++ "e" (that is, "i-0e") parses, but the integer rule
rejects it (recoverable OneOf error at the digit run "0e"). -/
theorem claim10_counterexample :
    parse_int (105 :: 45 :: (decimalOf 0 ++ [101])) = .soft [48, 101] .oneOfK := rfl

/-- C10 amended: the digit run is parsed as a non-negative 64-bit signed
integer before the sign is applied, so "i" ++ decimal(n) ++ "e" parses for
0 ≤ n ≤ 2^63 - 1, "i-" ++ decimal(n) ++ "e" parses for 1 ≤ n ≤ 2^63 - 1, and
for any magnitude n ≥ 2^63 both encodings fail — in particular
"i-9223372036854775808e" fails even though -2^63 fits in `i64`. -/
theorem claim10_amended (n : Nat) :
    (n < 2 ^ 63 →
      parse_int (105 :: (decimalOf n ++ [101])) = .ok [] (n : Int)) ∧
    (0 < n → n < 2 ^ 63 →
      parse_int (105 :: 45 :: (decimalOf n ++ [101])) = .ok [] (-(n : Int))) ∧
    (2 ^ 63 ≤ n →
      parse_int (105 :: (decimalOf n ++ [101]))
        = .soft (decimalOf n ++ [101]) .mapResK ∧
      parse_int (105 :: 45 :: (decimalOf n ++ [101]))
        = .soft (decimalOf n ++ [101]) .mapResK) := by
  refine ⟨?_, ?_, ?_⟩
  · intro hn
    rcases Nat.eq_zero_or_pos n with rfl | hp
    · exact parse_int_build _ _ _ (nzp_ok_zero [])
    · exact parse_int_build _ _ _ (nzp_ok_pos n hp hn [])
  · intro hp hn
    exact parse_int_build _ _ _ (nzp_ok_neg n hp hn [])
  · intro h2
    exact ⟨parse_int_soft_of_nzp _ _ _ (nzp_overflow_pos n h2 []),
           parse_int_soft_of_nzp _ _ _ (nzp_overflow_neg n h2 [])⟩

/-- Witness for the amended C10 at n = 7 and at the overflowing n = 2^63
(the magnitude of "i-9223372036854775808e"). -/
theorem claim10_amended_witness :
    parse_int (105 :: (decimalOf 7 ++ [101])) = .ok [] ((7 : Nat) : Int) ∧
    parse_int (105 :: 45 :: (decimalOf (2 ^ 63) ++ [101]))
      = .soft (decimalOf (2 ^ 63) ++ [101]) .mapResK :=
  ⟨(claim10_amended 7).1 (by norm_num),
   ((claim10_amended (2 ^ 63)).2.2 (le_refl _)).2⟩
